import Mathlib

/-!
Verification of the CTA analyzer pipeline (src/cta_analyzer.py) against its
natural-language specification.  The Python functions are shallowly embedded
as executable Lean functions over `List Char` (Python strings are sequences
of code points, so `List Char` is the faithful carrier); `String` wrappers
mirror the source-level signatures.
-/

namespace CTA

/-- Characters treated as whitespace by Python's `str.strip()` (the ASCII
whitespace characters plus the other control/NEL characters that are also
line boundaries; sufficient for the texts handled here). -/
def isSpacePy (c : Char) : Bool :=
  c = ' ' || c = '\t' || c = '\n' || c = '\r' || c = '\x0b' || c = '\x0c' ||
  c = '\x1c' || c = '\x1d' || c = '\x1e' || c = '\x85'

/-- Characters on which Python's `str.splitlines()` breaks lines
(`\r\n` is additionally treated as a single boundary, see `splitLinesAux`). -/
def isLineBreak (c : Char) : Bool :=
  c = '\n' || c = '\r' || c = '\x0b' || c = '\x0c' || c = '\x1c' ||
  c = '\x1d' || c = '\x1e' || c = '\x85' || c = '\u2028' || c = '\u2029'

/-- Python `str.strip()`: drop leading and trailing whitespace. -/
def pyStrip (s : List Char) : List Char :=
  ((s.dropWhile isSpacePy).reverse.dropWhile isSpacePy).reverse

/-- Python `str.lower()` (ASCII case folding, which covers every
pattern used by the analyzer). -/
def lowerL (s : List Char) : List Char := s.map Char.toLower

/-- Python `str.isdigit()`: nonempty and all digit characters. -/
def pyIsdigit (s : List Char) : Bool := !s.isEmpty && s.all Char.isDigit

/-- Python's substring test `needle in hay`: some suffix of `hay` starts
with `needle`. -/
def containsSub (needle : List Char) : List Char → Bool
  | [] => needle.isEmpty
  | s@(_ :: t) => needle.isPrefixOf s || containsSub needle t

/-- Worker for `splitLinesPy`: `acc` is the line collected so far.
`"\r\n"` counts as one boundary; a trailing boundary produces no extra
empty line (Python `str.splitlines()` behaviour). -/
def splitLinesAux (acc : List Char) : List Char → List (List Char)
  | [] => [acc]
  | [c] => if isLineBreak c then [acc] else [acc ++ [c]]
  | c :: d :: r =>
    if c = '\r' && d = '\n' then
      acc :: (if r.isEmpty then [] else splitLinesAux [] r)
    else if isLineBreak c then acc :: splitLinesAux [] (d :: r)
    else splitLinesAux (acc ++ [c]) (d :: r)

/-- Python `str.splitlines()`. -/
def splitLinesPy (s : List Char) : List (List Char) :=
  if s.isEmpty then [] else splitLinesAux [] s

/-- `" ".join(...)` on the list level. -/
def joinSpace : List (List Char) → List Char
  | [] => []
  | [l] => l
  | l :: ls => l ++ ' ' :: joinSpace ls

/-- `"\n".join(...)` on the list level. -/
def joinNl : List (List Char) → List Char
  | [] => []
  | [l] => l
  | l :: ls => l ++ '\n' :: joinNl ls

/-- `"; ".join(...)` on the list level. -/
def joinSemi : List (List Char) → List Char
  | [] => []
  | [l] => l
  | l :: ls => l ++ ';' :: ' ' :: joinSemi ls

/-- The sentinel returned by `clean_text` when no line qualifies. -/
def sentinel : String := "No usable text found."

/-- Embedding of `clean_text` (src/cta_analyzer.py lines 59-64), list level.
It mirrors the source line by line: split into lines, one comprehension that
strips and filters on length and digits, two further filters, then
`" ".join(lines[:30]) or sentinel` (Python `or` replaces an empty string). -/
def clean_textL (text : List Char) : List Char :=
  let lines := splitLinesPy text
  let lines1 := (lines.filter (fun l =>
      ((pyStrip l).length > 10) && !(pyIsdigit (pyStrip l)))).map pyStrip
  let lines2 := lines1.filter (fun l => !("whereas".data.isPrefixOf (lowerL l)))
  let lines3 := lines2.filter (fun l => !(containsSub "confidential".data (lowerL l)))
  let j := joinSpace (lines3.take 30)
  if j.isEmpty then sentinel.data else j

/-- Embedding of `clean_text`, string level. -/
def clean_text (text : String) : String := String.mk (clean_textL text.data)

/-- Spec-side qualifying predicate on a trimmed line, following the spec's
words: trimmed length > 10, not entirely digits, trimmed lower-cased form
does not start with "whereas", lower-cased form does not contain
"confidential". -/
def qualifiesLine (l : List Char) : Bool :=
  (l.length > 10 && !(pyIsdigit l)) && !("whereas".data.isPrefixOf (lowerL l))
    && !(containsSub "confidential".data (lowerL l))

/-- Spec-side normalizer, following the spec's words: trim every line, keep
the qualifying ones, keep at most the first 30 in order, join with single
spaces, and return the sentinel exactly when zero lines qualify. -/
def specCleanL (text : List Char) : List Char :=
  let survivors := ((splitLinesPy text).map pyStrip).filter qualifiesLine
  if survivors.isEmpty then sentinel.data else joinSpace (survivors.take 30)

/-- Spec-side normalizer, string level. -/
def specClean (text : String) : String := String.mk (specCleanL text.data)

/-- Embedding of `extract_text_from_pdf` (src/cta_analyzer.py lines 16-24).
`pages` holds each page's extracted text (`none` when `page.extract_text()`
returns `None`, replaced by `""` as in the source); `ocrPages` holds the OCR
result of each rendered page.  The direct texts are joined by `"\n"`; if the
trimmed join has length > 100 it is returned, otherwise the OCR texts are
concatenated with no separator. -/
def extract_text_from_pdf (pages : List (Option (List Char)))
    (ocrPages : List (List Char)) : List Char :=
  let text := joinNl (pages.map (fun p => p.getD []))
  if (pyStrip text).length > 100 then text else ocrPages.flatten

/-- The direct (text-layer) extraction result: pages joined by newline with
`""` substituted for pages without text. -/
def directText (pages : List (Option (List Char))) : List Char :=
  joinNl (pages.map (fun p => p.getD []))

/-- Case-insensitive substring test, as Python `needle in text.lower()`
for an already lower-case needle. -/
def containsCI (text : String) (needle : String) : Bool :=
  containsSub needle.data (lowerL text.data)

/-- Embedding of `flag_risks` (src/cta_analyzer.py lines 77-85): three
fixed case-insensitive substring tests in source order, each appending one
fixed warning string. -/
def flag_risks (text : String) : List String :=
  let risks : List String := []
  let risks := if containsCI text "termination for convenience"
    then risks ++ ["⚠️ Termination may favor sponsor"] else risks
  let risks := if containsCI text "sole discretion"
    then risks ++ ["⚠️ One-sided decision-making clause"] else risks
  let risks := if containsCI text "no obligation to pay"
    then risks ++ ["⚠️ Payment obligation is unclear"] else risks
  risks

/-! ### Clause extraction (`extract_key_clauses`, lines 66-75) -/

/-- Model of `re.findall(label + ".*", s)` for a nonempty, newline-free
literal `label`: scan left to right; while no match is open, a position
where `label` is a prefix opens a match; an open match collects characters
up to the next `'\n'` (regex `.` does not match a newline) and scanning
resumes there, so matches never overlap.  The first argument is `some acc`
while a match with collected text `acc` is open. -/
def findLineMatchesAux (label : List Char) :
    Option (List Char) → List Char → List (List Char)
  | none, [] => []
  | some acc, [] => [acc]
  | some acc, c :: cs =>
    if c = '\n' then acc :: findLineMatchesAux label none cs
    else findLineMatchesAux label (some (acc ++ [c])) cs
  | none, c :: cs =>
    if label.isPrefixOf (c :: cs) then findLineMatchesAux label (some [c]) cs
    else findLineMatchesAux label none cs

/-- `re.findall(label + ".*", s)` at the string level. -/
def findallLabelLine (label : String) (s : List Char) : List String :=
  (findLineMatchesAux label.data none s).map String.mk

/-- Splitting on `'\n'` alone: the segments inside which regex `.` may
match.  Always returns at least one (possibly empty) segment. -/
def splitNl : List Char → List (List Char)
  | [] => [[]]
  | c :: cs =>
    if c = '\n' then [] :: splitNl cs
    else
      match splitNl cs with
      | [] => [[c]]
      | l :: ls => (c :: l) :: ls

/-- Spec-side helper: the suffix of `line` starting at the first occurrence
of `label`, if any. -/
def firstFrom (label : List Char) : List Char → Option (List Char)
  | [] => none
  | c :: cs => if label.isPrefixOf (c :: cs) then some (c :: cs)
    else firstFrom label cs

/-- Spec-side clause matches: per `'\n'`-separated line, the segment from
the first occurrence of the label literal to the end of that line. -/
def lineMatchSpec (label : List Char) (s : List Char) : List (List Char) :=
  (splitNl s).filterMap (firstFrom label)

/-- One comma group `,(ddd)` repetition parser for the budget regex
`(?:,\d{3})*` (greedy): returns the consumed characters and the rest. -/
def parseGroups : List Char → List Char × List Char
  | ',' :: a :: b :: c :: rest =>
    if a.isDigit && b.isDigit && c.isDigit then
      let p := parseGroups rest
      (',' :: a :: b :: c :: p.1, p.2)
    else ([], ',' :: a :: b :: c :: rest)
  | s => ([], s)

/-- The optional cents parser for `(?:\.\d{2})?` (greedy): returns the
consumed characters and the rest. -/
def parseCents : List Char → List Char × List Char
  | '.' :: a :: b :: rest =>
    if a.isDigit && b.isDigit then (['.', a, b], rest)
    else ([], '.' :: a :: b :: rest)
  | s => ([], s)

/-- Model of `re.findall(r"\$\d{1,3}(?:,\d{3})*(?:\.\d{2})?", s)`, with
`fuel` bounding the number of scan steps (`s.length` suffices).  At a `'$'`
the quantifier `\d{1,3}` greedily takes up to three digits (at least one
or the position fails); every later part of the pattern can match the empty
string, so the Python regex engine never backtracks into the digits, and
scanning resumes after each match. -/
def scanBudgetF : Nat → List Char → List (List Char)
  | 0, _ => []
  | _, [] => []
  | fuel + 1, c :: cs =>
    if c = '$' then
      let ds := (cs.takeWhile Char.isDigit).take 3
      if ds.isEmpty then scanBudgetF fuel cs
      else
        let rest1 := cs.drop ds.length
        let pg := parseGroups rest1
        let pc := parseCents pg.2
        ('$' :: (ds ++ pg.1 ++ pc.1)) :: scanBudgetF fuel pc.2
    else scanBudgetF fuel cs

/-- `re.findall` for the budget pattern over a whole string. -/
def findallBudget (s : List Char) : List String :=
  (scanBudgetF s.length s).map String.mk

/-- Suffix checker for the spec's currency grammar after the leading
digits: zero or more groups of a comma followed by exactly three digits,
optionally ended by a dot followed by exactly two digits. -/
def tailOk : List Char → Bool
  | [] => true
  | ',' :: a :: b :: c :: rest => a.isDigit && b.isDigit && c.isDigit && tailOk rest
  | ['.', a, b] => a.isDigit && b.isDigit
  | _ => false

/-- Decides the claim's currency grammar as a full-string match: `"$"`,
then one to three digits, then optional groups of exactly three digits each
preceded by a comma, then optionally `"."` and exactly two digits.  Taking
the whole leading digit run is faithful: any shorter choice of the first
quantifier leaves a digit where the grammar demands a comma, dot or the
end, so a string is in the grammar iff this checker accepts it. -/
def isCurrency (s : List Char) : Bool :=
  match s with
  | '$' :: rest =>
    let n := (rest.takeWhile Char.isDigit).length
    (1 ≤ n && n ≤ 3) && tailOk (rest.drop n)
  | _ => false

/-- The clause findings record (the dict built by `extract_key_clauses`). -/
structure ClauseFindings where
  sponsor : List String
  institution : List String
  investigator : List String
  budget : List String
  includesIndemnification : Bool
  includesInjuryClause : Bool
  terminationRights : Bool
  deriving DecidableEq, Repr

/-- Embedding of `extract_key_clauses` (src/cta_analyzer.py lines 66-75):
the three label patterns search `text[:2000]`, the budget pattern searches
the whole text, and the three booleans are substring tests (the last one on
the lower-cased text). -/
def extract_key_clauses (text : String) : ClauseFindings :=
  { sponsor := findallLabelLine "Sponsor" (text.data.take 2000)
  , institution := findallLabelLine "Institution" (text.data.take 2000)
  , investigator := findallLabelLine "Investigator" (text.data.take 2000)
  , budget := findallBudget text.data
  , includesIndemnification := containsSub "Indemnification".data text.data
  , includesInjuryClause := containsSub "Trial Participant Injury".data text.data
  , terminationRights := containsSub "terminate".data (lowerL text.data) }

/-! ### Milestone extraction (`extract_milestones`, lines 100-118) -/

/-- Python `\w` under `re.IGNORECASE` restricted to ASCII: letters, digits
and the underscore. -/
def isWordChar (c : Char) : Bool := c.isAlphanum || c = '_'

/-- Case-insensitive literal-prefix test: `pat` is stored lower-case and is
compared against the lower-cased input. -/
def ciPrefixAt : List Char → List Char → Bool
  | [], _ => true
  | _ :: _, [] => false
  | p :: ps, c :: cs => (c.toLower = p) && ciPrefixAt ps cs

/-- Trailing `\b`: the next character is absent or not a word character
(every alternative ends in a word character). -/
def wordEndOk (r : List Char) : Bool :=
  match r.head? with
  | none => true
  | some c => !isWordChar c

/-- Try the alternatives of a `\b(a|b|...)\b` pattern at one position, in
the regex's alternation order; on success return the matched slice in its
original case (`match.group(0)`). -/
def tryAlts (alts : List (List Char)) (r : List Char) : Option (List Char) :=
  match alts with
  | [] => none
  | a :: rest =>
    if ciPrefixAt a r && wordEndOk (r.drop a.length) then some (r.take a.length)
    else tryAlts rest r

/-- Leading `\b` at the scan position: the previous character is absent or
not a word character (every alternative starts with a word character). -/
def atBoundaryPrev : Option Char → Bool
  | none => true
  | some c => !isWordChar c

/-- Model of `re.search` for a `\b(alt|...)\b` pattern of word-delimited
literal alternatives: scan left to right carrying the previous character
and return the first position's match. -/
def searchAux (alts : List (List Char)) : Option Char → List Char → Option (List Char)
  | _, [] => none
  | prev, c :: cs =>
    match (if atBoundaryPrev prev then tryAlts alts (c :: cs) else none) with
    | some m => some m
    | none => searchAux alts (some c) cs

/-- The fixed `MILESTONE_PATTERNS` table (lines 100-107) in declaration
order.  Each regex is expanded into its ordered list of literal
alternatives: `[- ]?` yields the hyphen, space and empty variants (in
greedy order; the hyphen and space variants are mutually exclusive at any
position, so their relative order is immaterial), and a group such as
`irb (approval|submission)` distributes the prefix over the alternation. -/
def milestonePats : List (String × List (List Char)) :=
  [ ("First Subject In (FSI)", ["first subject in".data, "fsi".data])
  , ("Last Subject Out (LSO)", ["last subject out".data, "lso".data])
  , ("Enrollment Completion", ["enrollment completion".data])
  , ("Study Closeout",
      [ "study close-out".data, "study close out".data, "study closeout".data
      , "close-out visit".data, "close out visit".data, "closeout visit".data])
  , ("IRB Approval", ["irb approval".data, "irb submission".data])
  , ("Site Activation", ["site activation".data, "activation date".data]) ]

/-- One row of the milestone table. -/
structure MilestoneRow where
  label : String
  mentioned : String
  exampleText : String
  deriving DecidableEq, Repr

/-- Embedding of `extract_milestones` (lines 109-118): one row per pattern
in declaration order; `Mentioned?` is `"✅ Yes"` iff `re.search` finds a
match, and `Example` is `match.group(0)` of the first match, else `""`. -/
def extract_milestones (text : String) : List MilestoneRow :=
  milestonePats.map (fun p =>
    match searchAux p.2 none text.data with
    | some m => ⟨p.1, "✅ Yes", String.mk m⟩
    | none => ⟨p.1, "❌ No", ""⟩)

/-- Spec-side word boundary before position `i` of `s`: `i = 0` or the
character at `i - 1` is not a word character. -/
def boundaryBefore (s : List Char) : Nat → Bool
  | 0 => true
  | j + 1 =>
    match s.get? j with
    | some c => !isWordChar c
    | none => true

/-- Spec-side: the pattern's match at position `i` of `s`, if any. -/
def specMatchAt (alts : List (List Char)) (s : List Char) (i : Nat) :
    Option (List Char) :=
  if boundaryBefore s i then tryAlts alts (s.drop i) else none

/-- Spec-side `re.search`: the match at the first position of the entire
text where the pattern matches. -/
def specSearch (alts : List (List Char)) (s : List Char) : Option (List Char) :=
  (List.range s.length).findSome? (specMatchAt alts s)

/-! ### Payment-term extraction (both strategies, lines 26-57 and 121-138) -/

/-- One row of a payment table.  Both strategies produce this shape; the
third column is named `Details` by the custom strategy and `Examples` by
the generic one. -/
structure PaymentRow where
  label : String
  mentioned : String
  detail : String
  deriving DecidableEq, Repr

/-- Case-sensitive Python `needle in text` at the string level. -/
def containsS (text : String) (needle : String) : Bool :=
  containsSub needle.data text.data

/-- Embedding of `extract_payment_terms_custom` (lines 26-57): a fixed
ordered list of trigger-substring rules, each appending one constant row
when the document contains one of its trigger literals. -/
def extract_payment_terms_custom (text : String) : List PaymentRow :=
  (if containsS text "Administrative Start-Up Fee" ||
      containsS text "Administrative Start-Up Fees"
    then [⟨"Startup Fee", "✅ Yes", "$10,000"⟩] else []) ++
  (if containsS text "Total Listed Fees: $41,254.93" ||
      containsS text "Total Cost per Patient"
    then [⟨"Per Patient Visits", "✅ Yes", "$41,254.93"⟩] else []) ++
  (if containsS text "Final payment will consist of" ||
      containsS text "Fee for cleaning and answering queries"
    then [⟨"Final Closeout (DB Lock)", "✅ Yes", "Included in Final Payment"⟩] else []) ++
  (if containsS text "Local Initial IRB Pass-Through Fees"
    then [⟨"IRB Fees", "✅ Yes", "Up to $4,000"⟩] else []) ++
  (if containsS text "Screen Failure Visit Fee"
    then [⟨"Screen Failures", "✅ Yes", "$3,017.02"⟩] else []) ++
  (if containsS text "Patient Stipend"
    then [⟨"Patient Stipend", "✅ Yes", "$150/visit, ~$5,400 total"⟩] else []) ++
  (if containsS text "Invoiceable Items"
    then [⟨"Misc. Items (MRI, Re-consent, etc.)", "✅ Yes", "See appendix"⟩] else [])

/-- The labels of the custom strategy's seven rules, in rule order. -/
def customPaymentLabels : List String :=
  [ "Startup Fee", "Per Patient Visits", "Final Closeout (DB Lock)", "IRB Fees"
  , "Screen Failures", "Patient Stipend", "Misc. Items (MRI, Re-consent, etc.)" ]

/-- Length of the first alternative of a literal alternation that matches
case-insensitively at this position (regex alternation order). -/
def altLen (alts : List (List Char)) (s : List Char) : Option Nat :=
  match alts with
  | [] => none
  | a :: rest => if ciPrefixAt a s then some a.length else altLen rest s

/-- Matcher for `\$\d[\d,]*(?:\.\d{2})?` at one position: a dollar sign,
one digit, a greedy run of digits and commas, and an optional dot followed
by exactly two digits.  Both trailing parts can match the empty string, so
the regex engine never backtracks into the greedy run. -/
def dollarLen : List Char → Option Nat
  | '$' :: c :: rest =>
    if c.isDigit then
      let body := rest.takeWhile (fun x => x.isDigit || x = ',')
      let rest2 := rest.drop body.length
      let cents : Nat :=
        match rest2 with
        | '.' :: a :: b :: _ => if a.isDigit && b.isDigit then 3 else 0
        | _ => 0
      some (2 + body.length + cents)
    else none
  | _ => none

/-- Matcher for `\d{1,2} ?%` at one position (greedy digits, then an
optional space, then the percent sign, with the regex's backtracking). -/
def percentLen : List Char → Option Nat
  | c1 :: rest =>
    if c1.isDigit then
      match rest with
      | c2 :: rest2 =>
        if c2.isDigit then
          match rest2 with
          | ' ' :: '%' :: _ => some 4
          | '%' :: _ => some 3
          | _ => none
        else
          match c2, rest2 with
          | '%', _ => some 2
          | ' ', '%' :: _ => some 3
          | _, _ => none
      | [] => none
    else none
  | [] => none

/-- The lazy gap `.*?` before a required sub-pattern: expand one character
at a time (never across `'\n'`, which `.` cannot match) until `tryAt`
matches; return the gap width and `tryAt`'s answer. -/
def lazyFind (tryAt : List Char → Option Nat) : List Char → Option (Nat × Nat)
  | [] => (tryAt []).map (fun n => (0, n))
  | c :: cs =>
    match tryAt (c :: cs) with
    | some n => some (0, n)
    | none =>
      if c = '\n' then none
      else (lazyFind tryAt cs).map (fun p => (p.1 + 1, p.2))

/-- Matcher for `(startup|start-up) fee.*?\$\d[\d,]*(?:\.\d{2})?` at one
position; returns the total match length and the group-1 slice. -/
def matchStartup (s : List Char) : Option (Nat × List Char) :=
  match altLen ["startup".data, "start-up".data] s with
  | none => none
  | some n1 =>
    if ciPrefixAt " fee".data (s.drop n1) then
      match lazyFind dollarLen (s.drop (n1 + 4)) with
      | none => none
      | some (k, n2) => some (n1 + 4 + k + n2, s.take n1)
    else none

/-- Matcher for `\$\d[\d,]*(?:\.\d{2})?.*?(per visit|per subject)`. -/
def matchPerVisit (s : List Char) : Option (Nat × List Char) :=
  match dollarLen s with
  | none => none
  | some n1 =>
    match lazyFind (altLen ["per visit".data, "per subject".data]) (s.drop n1) with
    | none => none
    | some (k, n2) => some (n1 + k + n2, (s.drop (n1 + k)).take n2)

/-- Matcher for `(closeout|close-out) fee.*?\$\d[\d,]*(?:\.\d{2})?`. -/
def matchCloseout (s : List Char) : Option (Nat × List Char) :=
  match altLen ["closeout".data, "close-out".data] s with
  | none => none
  | some n1 =>
    if ciPrefixAt " fee".data (s.drop n1) then
      match lazyFind dollarLen (s.drop (n1 + 4)) with
      | none => none
      | some (k, n2) => some (n1 + 4 + k + n2, s.take n1)
    else none

/-- Matcher for `irb (submission|review).*?\$\d[\d,]*(?:\.\d{2})?`;
group 1 is the alternation after `"irb "`. -/
def matchIrb (s : List Char) : Option (Nat × List Char) :=
  if ciPrefixAt "irb ".data s then
    match altLen ["submission".data, "review".data] (s.drop 4) with
    | none => none
    | some n2 =>
      match lazyFind dollarLen (s.drop (4 + n2)) with
      | none => none
      | some (k, n3) => some (4 + n2 + k + n3, (s.drop 4).take n2)
  else none

/-- Matcher for `(overhead|administrative).*?(fee|charge).*?\d{1,2} ?%`;
group 1 is the first alternation.  With both gaps confined to the current
line, scanning for the first `(fee|charge)` occurrence and then for the
first percent expression after it is equivalent to the regex's
backtracking: any percent expression after a later `(fee|charge)` is also
after the first one. -/
def matchOverhead (s : List Char) : Option (Nat × List Char) :=
  match altLen ["overhead".data, "administrative".data] s with
  | none => none
  | some n1 =>
    match lazyFind (altLen ["fee".data, "charge".data]) (s.drop n1) with
    | none => none
    | some (k1, n2) =>
      match lazyFind percentLen (s.drop (n1 + k1 + n2)) with
      | none => none
      | some (k2, n3) => some (n1 + k1 + n2 + k2 + n3, s.take n1)

/-- Generic `re.findall` driver for the payment patterns: try the matcher
at every position; a match of length `n` emits its group and resumes after
the match.  `fuel` bounds the scan (`s.length` suffices; every pattern
matches at least one character). -/
def findallF (m : List Char → Option (Nat × List Char)) :
    Nat → List Char → List (List Char)
  | 0, _ => []
  | _, [] => []
  | fuel + 1, c :: cs =>
    match m (c :: cs) with
    | some (n, g) => g :: findallF m fuel ((c :: cs).drop (max n 1))
    | none => findallF m fuel cs

/-- One row of the generic payment table: `Mentioned?` is `"✅ Yes"` iff
there is a match, and `Examples` joins the first two group strings with
`"; "`. -/
def mkPayRow (label : String) (ms : List (List Char)) : PaymentRow :=
  { label := label
  , mentioned := if ms.isEmpty then "❌ No" else "✅ Yes"
  , detail := String.mk (joinSemi (ms.take 2)) }

/-- Embedding of `extract_payment_terms` (lines 129-138) over the fixed
`PAYMENT_PATTERNS` table (lines 121-127), iterated in declaration order.
For a single-group pattern `re.findall` returns the group strings, and for
the two-group overhead pattern the source keeps `match[0]`, the first
group — in every case the group our matchers return. -/
def extract_payment_terms (text : String) : List PaymentRow :=
  let s := text.data
  let n := s.length
  [ mkPayRow "Startup Fee" (findallF matchStartup n s)
  , mkPayRow "Per Visit Payment" (findallF matchPerVisit n s)
  , mkPayRow "Closeout Payment" (findallF matchCloseout n s)
  , mkPayRow "IRB Fee" (findallF matchIrb n s)
  , mkPayRow "Overhead / Admin Fee" (findallF matchOverhead n s) ]

/-- The labels of the generic strategy's five patterns, in declaration
order. -/
def genericPaymentLabels : List String :=
  [ "Startup Fee", "Per Visit Payment", "Closeout Payment", "IRB Fee"
  , "Overhead / Admin Fee" ]

/-! ### Summarizer and main-script control flow (lines 87-97 and 146-217) -/

/-- Embedding of `summarize_with_api` (lines 87-97) at the level of the
HTTP response: a 200 status with a parseable payload yields the summary;
a 200 status with an unparseable payload raises (modelled as an error, as
does the `KeyError` of a missing credential before the call); any other
status raises `ValueError` with the status and body. -/
def summarize_with_api (status : Nat) (body : String)
    (parsed : Option String) : Except String String :=
  if status = 200 then
    match parsed with
    | some summary => Except.ok summary
    | none => Except.error "unparseable response payload"
  else Except.error ("API Error " ++ toString status ++ ": " ++ body)

/-- The summary block (source lines 187-200): inside its `try`, the input
text area renders first, then the API call; an exception lands in the
`except` arm, which renders an error section instead of the summary and
its download button. -/
def summarySection (summaryResult : Except String String) : List String :=
  match summaryResult with
  | Except.ok _ => ["summary_input_area", "summary_info", "summary_download"]
  | Except.error _ => ["summary_input_area", "summary_error"]

/-- The risk block (source lines 203-209): a header, then one warning per
flag, or the distinct no-risks notice. -/
def riskSection (text : String) : List String :=
  "risk_flags_header" ::
    (if (flag_risks text).isEmpty then ["no_risks_notice"]
     else (flag_risks text).map (fun _ => "risk_warning"))

/-- The main script's control flow as it parses (lines 146-217).  Because
lines 164-214 are dedented out of the `if uploaded_file:` block, the
summary and risk sections sit inside the `except Exception` arm of the
payment-chart `try` (line 170), and the closing `st.info` (line 217)
becomes that `try` statement's `else` clause.  `chartRaises` models whether
the chart block raises; without an upload, line 166 evaluates the undefined
name `text` and the script dies with a `NameError`. -/
def mainSections (uploaded : Option String)
    (summaryResult : Except String String) (chartRaises : Bool) :
    Except String (List String) :=
  match uploaded with
  | none => Except.error "NameError: name 'text' is not defined"
  | some text =>
    let base := ["clause_summary", "milestone_table", "payment_custom_table"]
    if chartRaises then
      Except.ok (base ++ ["chart_warning"] ++ summarySection summaryResult ++
        riskSection text ++ ["clause_download"])
    else
      Except.ok (base ++ ["payment_chart", "upload_prompt"])

/-- The first `'\n'`-delimited segment of a string (spec-side helper: the
"rest of the line" reachable by regex `.` from the start). -/
def nlHead : List Char → List Char
  | [] => []
  | c :: cs => if c = '\n' then [] else c :: nlHead cs

/-- The `'\n'`-separated segments after the first one (spec-side helper;
`splitNl s = nlHead s :: nlTail s`). -/
def nlTail : List Char → List (List Char)
  | [] => []
  | c :: cs => if c = '\n' then splitNl cs else nlTail cs

/-- Word boundary at position `i`, generalized over the character `prev`
preceding the scanned region (`boundaryBefore s = boundaryGen none s`). -/
def boundaryGen (prev : Option Char) (s : List Char) : Nat → Bool
  | 0 => atBoundaryPrev prev
  | j + 1 =>
    match s.get? j with
    | some c => !isWordChar c
    | none => true

/-! ## Supporting lemmas -/

theorem containsSub_iff (needle hay : List Char) :
    containsSub needle hay = true ↔ needle <:+: hay := by
  induction hay with
  | nil => simp [containsSub, List.isEmpty_iff, List.infix_nil]
  | cons c t ih =>
    simp only [containsSub, Bool.or_eq_true, ih, List.infix_cons_iff,
      List.isPrefixOf_iff_prefix]

theorem ite_single_append_sublist {α : Type} (c : Bool) (x : α) {t t' : List α}
    (h : t.Sublist t') : ((if c then [x] else []) ++ t).Sublist (x :: t') := by
  cases c
  · simpa using h.trans (List.sublist_cons_self x t')
  · simpa using h.cons₂ x

theorem ite_single_sublist {α : Type} (c : Bool) (x : α) :
    (if c then [x] else []).Sublist [x] := by
  cases c <;> simp

theorem takeWhile_digits_exact (ds rest : List Char)
    (h1 : ∀ c ∈ ds, c.isDigit = true)
    (h2 : ∀ c, rest.head? = some c → c.isDigit = false) :
    (ds ++ rest).takeWhile Char.isDigit = ds := by
  induction ds with
  | nil =>
    simp only [List.nil_append]
    cases rest with
    | nil => rfl
    | cons c t => simp [List.takeWhile_cons, h2 c rfl]
  | cons d ds ih =>
    simp only [List.cons_append, List.takeWhile_cons, h1 d (by simp)]
    simpa using ih (fun c hc => h1 c (by simp [hc]))

theorem parseGroups_head (s : List Char) :
    ∀ c, ((parseGroups s).1).head? = some c → c = ',' := by
  rw [parseGroups.eq_def]
  split
  · split
    · intro c hc
      simpa using hc.symm
    · intro c hc
      simp at hc
  · intro c hc
    simp at hc

theorem parseCents_head (s : List Char) :
    ∀ c, ((parseCents s).1).head? = some c → c = '.' := by
  rw [parseCents.eq_def]
  split
  · split
    · intro c hc
      simpa using hc.symm
    · intro c hc
      simp at hc
  · intro c hc
    simp at hc

theorem parseCents_tailOk (s : List Char) : tailOk (parseCents s).1 = true := by
  rw [parseCents.eq_def]
  split
  · split
    · rename_i a b rest h
      simpa [tailOk] using h
    · simp [tailOk]
  · simp [tailOk]

theorem parseGroups_tailOk :
    ∀ (n : Nat) (s : List Char), s.length ≤ n →
      ∀ x, tailOk ((parseGroups s).1 ++ x) = tailOk x := by
  intro n
  induction n with
  | zero =>
    intro s hs x
    have hnil : s = [] := List.length_eq_zero.mp (Nat.le_zero.mp hs)
    subst hnil
    simp [parseGroups]
  | succ n ih =>
    intro s hs x
    rw [parseGroups.eq_def]
    split
    · rename_i a b c rest
      split
      · rename_i hd
        rw [Bool.and_eq_true, Bool.and_eq_true] at hd
        obtain ⟨⟨h1, h2⟩, h3⟩ := hd
        have hlen : rest.length ≤ n := by
          simp only [List.length_cons] at hs
          omega
        simp [tailOk, h1, h2, h3, ih rest hlen x]
      · simp
    · simp

theorem scanBudget_currency :
    ∀ (fuel : Nat) (s m : List Char), m ∈ scanBudgetF fuel s →
      isCurrency m = true := by
  intro fuel
  induction fuel with
  | zero =>
    intro s m hm
    simp [scanBudgetF] at hm
  | succ n ih =>
    intro s m hm
    match s with
    | [] => simp [scanBudgetF] at hm
    | c :: cs =>
      simp only [scanBudgetF] at hm
      by_cases hc : c = '$'
      · rw [if_pos hc] at hm
        by_cases hds : ((cs.takeWhile Char.isDigit).take 3).isEmpty = true
        · rw [if_pos hds] at hm
          exact ih cs m hm
        · rw [if_neg hds] at hm
          rcases List.mem_cons.mp hm with hmeq | hmem
          · subst hmeq
            set ds := (cs.takeWhile Char.isDigit).take 3 with hdsdef
            have hall : ∀ x ∈ ds, x.isDigit = true := fun x hx =>
              List.mem_takeWhile_imp (List.take_subset 3 _ hx)
            have hne : ds ≠ [] := fun hnil => hds (by simp [hnil])
            set pg := parseGroups (cs.drop ds.length) with hpgdef
            set pc := parseCents pg.2 with hpcdef
            have hhead : ∀ x, (pg.1 ++ pc.1).head? = some x → x.isDigit = false := by
              intro x hx
              cases hpg1 : pg.1 with
              | nil =>
                rw [hpg1, List.nil_append] at hx
                have hxd := parseCents_head pg.2 x hx
                subst hxd
                decide
              | cons y ys =>
                rw [hpg1] at hx
                simp only [List.cons_append, List.head?_cons, Option.some.injEq] at hx
                subst hx
                have hyd := parseGroups_head (cs.drop ds.length) y (by rw [← hpgdef, hpg1]; rfl)
                subst hyd
                decide
            simp only [isCurrency]
            rw [List.append_assoc]
            rw [takeWhile_digits_exact ds (pg.1 ++ pc.1) hall hhead]
            rw [List.drop_left]
            have h1 : 1 ≤ ds.length := by
              cases dsn : ds with
              | nil => exact absurd dsn hne
              | cons y ys => simp [dsn]
            have h3 : ds.length ≤ 3 := by
              rw [hdsdef]
              exact List.length_take_le 3 _
            rw [parseGroups_tailOk (cs.drop ds.length).length _ (Nat.le_refl _)]
            rw [parseCents_tailOk]
            simp [h1, h3]
          · exact ih _ m hmem
      · rw [if_neg hc] at hm
        exact ih cs m hm

theorem pref_append_not_mem {c : Char} :
    ∀ (u : List Char) {p v : List Char}, c ∉ p → p <+: u ++ c :: v → p <+: u := by
  intro u
  induction u with
  | nil =>
    intro p v hc h
    rw [List.nil_append] at h
    rcases List.prefix_cons_iff.mp h with h0 | ⟨t, ht, _⟩
    · simp [h0]
    · exact absurd (ht ▸ List.mem_cons_self c t) hc
  | cons x u ih =>
    intro p v hc h
    rw [List.cons_append] at h
    rcases List.prefix_cons_iff.mp h with h0 | ⟨t, ht, htp⟩
    · simp [h0]
    · subst ht
      refine List.cons_prefix_cons.mpr ⟨rfl, ih ?_ htp⟩
      exact fun hmem => hc (List.mem_cons_of_mem x hmem)

theorem infix_append_cons_split {c : Char} :
    ∀ (u : List Char) {p v : List Char}, c ∉ p → p ≠ [] →
      p <:+: u ++ c :: v → p <:+: u ∨ p <:+: v := by
  intro u
  induction u with
  | nil =>
    intro p v hc hp h
    rw [List.nil_append] at h
    rcases List.infix_cons_iff.mp h with hpre | hinf
    · rcases List.prefix_cons_iff.mp hpre with h0 | ⟨t, ht, _⟩
      · exact absurd h0 hp
      · exact absurd (ht ▸ List.mem_cons_self c t) hc
    · exact Or.inr hinf
  | cons x u ih =>
    intro p v hc hp h
    rw [List.cons_append] at h
    rcases List.infix_cons_iff.mp h with hpre | hinf
    · refine Or.inl (List.IsPrefix.isInfix ?_)
      exact pref_append_not_mem (x :: u) hc (by rwa [List.cons_append])
    · rcases ih hc hp hinf with h1 | h2
      · exact Or.inl (List.infix_cons h1)
      · exact Or.inr h2

theorem infix_joinSpace_mem {p : List Char} (hc : ' ' ∉ p) (hp : p ≠ []) :
    ∀ L : List (List Char), p <:+: joinSpace L → ∃ l ∈ L, p <:+: l := by
  intro L
  induction L with
  | nil =>
    intro h
    rw [show joinSpace [] = [] from rfl] at h
    exact absurd (List.infix_nil.mp h) hp
  | cons l ls ih =>
    intro h
    cases ls with
    | nil => exact ⟨l, List.mem_cons_self l [], by simpa [joinSpace] using h⟩
    | cons m ms =>
      rw [show joinSpace (l :: m :: ms) = l ++ ' ' :: joinSpace (m :: ms) from rfl] at h
      rcases infix_append_cons_split l hc hp h with h1 | h2
      · exact ⟨l, List.mem_cons_self l _, h1⟩
      · obtain ⟨x, hx, hxi⟩ := ih h2
        exact ⟨x, List.mem_cons_of_mem l hx, hxi⟩

theorem splitNl_ne_nil (s : List Char) : splitNl s ≠ [] := by
  cases s with
  | nil => simp [splitNl]
  | cons c cs =>
    simp only [splitNl]
    split
    · simp
    · split <;> simp

theorem splitNl_decomp (s : List Char) :
    splitNl s = nlHead s :: nlTail s := by
  induction s with
  | nil => rfl
  | cons c cs ih =>
    by_cases hc : c = '\n'
    · subst hc
      simp [splitNl, nlHead, nlTail]
    · simp only [splitNl, nlHead, nlTail, if_neg hc]
      rw [ih]

theorem nlHead_no_newline (s : List Char) : '\n' ∉ nlHead s := by
  induction s with
  | nil => simp [nlHead]
  | cons c cs ih =>
    by_cases hc : c = '\n'
    · simp [nlHead, hc]
    · simp only [nlHead, if_neg hc]
      intro hmem
      rcases List.mem_cons.mp hmem with h1 | h2
      · exact hc h1.symm
      · exact ih h2

theorem pref_nlHead {p : List Char} (hnl : '\n' ∉ p) :
    ∀ {s : List Char}, p <+: s → p <+: nlHead s := by
  induction p with
  | nil => exact fun _ => List.nil_prefix
  | cons a p ih =>
    intro s h
    obtain ⟨t, rfl⟩ := h
    have ha : a ≠ '\n' := fun h' => hnl (h' ▸ List.mem_cons_self a p)
    rw [List.cons_append]
    simp only [nlHead, if_neg ha]
    refine List.cons_prefix_cons.mpr ⟨rfl, ?_⟩
    exact ih (fun hm => hnl (List.mem_cons_of_mem a hm)) (List.prefix_append p t)

theorem nlHead_pref (s : List Char) : nlHead s <+: s := by
  induction s with
  | nil => simp [nlHead]
  | cons c cs ih =>
    by_cases hc : c = '\n'
    · simp [nlHead, hc, List.nil_prefix]
    · simp only [nlHead, if_neg hc]
      exact List.cons_prefix_cons.mpr ⟨rfl, ih⟩

theorem isPrefixOf_newline_false {label : List Char} (hne : label ≠ [])
    (hnl : '\n' ∉ label) (cs : List Char) :
    label.isPrefixOf ('\n' :: cs) = false := by
  cases hpf : label.isPrefixOf ('\n' :: cs)
  · rfl
  · exfalso
    have h := ( List.isPrefixOf_iff_prefix).mp hpf
    rcases List.prefix_cons_iff.mp h with h0 | ⟨t, ht, _⟩
    · exact hne h0
    · exact hnl (ht ▸ List.mem_cons_self '\n' t)

theorem findAux_spec {label : List Char} (hne : label ≠ [])
    (hnl : '\n' ∉ label) :
    ∀ s : List Char,
      (findLineMatchesAux label none s =
        (splitNl s).filterMap (firstFrom label)) ∧
      (∀ acc, findLineMatchesAux label (some acc) s =
        (acc ++ nlHead s) :: ((nlTail s).filterMap (firstFrom label))) := by
  intro s
  induction s with
  | nil =>
    constructor
    · simp [findLineMatchesAux, splitNl, firstFrom]
    · intro acc
      simp [findLineMatchesAux, splitNl, nlHead, nlTail]
  | cons c cs ih =>
    obtain ⟨ihn, ihs⟩ := ih
    by_cases hc : c = '\n'
    · subst hc
      constructor
      · simp only [findLineMatchesAux, isPrefixOf_newline_false hne hnl cs,
          Bool.false_eq_true, if_false]
        rw [ihn]
        simp [splitNl, firstFrom]
      · intro acc
        simp only [findLineMatchesAux, if_pos rfl]
        rw [ihn]
        simp [nlHead, nlTail]
    · have hnlh : nlHead (c :: cs) = c :: nlHead cs := by
        simp [nlHead, hc]
      have hnlt : nlTail (c :: cs) = nlTail cs := by
        simp [nlTail, hc]
      constructor
      · by_cases hp : label.isPrefixOf (c :: cs) = true
        · simp only [findLineMatchesAux, hp, if_true]
          rw [ihs [c]]
          rw [splitNl_decomp (c :: cs), hnlh, hnlt]
          have hpre : label <+: c :: nlHead cs := by
            have h1 : label <+: c :: cs := ( List.isPrefixOf_iff_prefix).mp hp
            have h2 := pref_nlHead hnl h1
            rwa [hnlh] at h2
          have hff : firstFrom label (c :: nlHead cs) = some (c :: nlHead cs) := by
            simp only [firstFrom]
            rw [if_pos (( List.isPrefixOf_iff_prefix).mpr hpre)]
          rw [List.filterMap_cons, hff]
          rfl
        · simp only [findLineMatchesAux]
          rw [if_neg hp]
          rw [ihn, splitNl_decomp (c :: cs), hnlh, hnlt, splitNl_decomp cs]
          have hnp : label.isPrefixOf (c :: nlHead cs) = false := by
            cases hq : label.isPrefixOf (c :: nlHead cs)
            · rfl
            · exfalso
              apply hp
              have h1 : label <+: c :: nlHead cs :=
                ( List.isPrefixOf_iff_prefix).mp hq
              have h2 : (c :: nlHead cs) <+: (c :: cs) :=
                List.cons_prefix_cons.mpr ⟨rfl, nlHead_pref cs⟩
              exact ( List.isPrefixOf_iff_prefix).mpr (h1.trans h2)
          have hff : firstFrom label (c :: nlHead cs) = firstFrom label (nlHead cs) := by
            simp only [firstFrom]
            rw [if_neg (by simp [hnp])]
          rw [List.filterMap_cons, List.filterMap_cons, hff]
      · intro acc
        simp only [findLineMatchesAux, if_neg hc]
        rw [ihs (acc ++ [c])]
        rw [hnlh, hnlt]
        rw [List.append_cons acc c (nlHead cs)]

theorem findSome?_congr {α β : Type} {f g : α → Option β} :
    ∀ l : List α, (∀ a ∈ l, f a = g a) → l.findSome? f = l.findSome? g := by
  intro l
  induction l with
  | nil => intro _; rfl
  | cons a t ih =>
    intro h
    rw [List.findSome?_cons, List.findSome?_cons, h a (List.mem_cons_self a t),
      ih (fun x hx => h x (List.mem_cons_of_mem a hx))]

theorem boundaryGen_shift (prev : Option Char) (c : Char) (cs : List Char) :
    ∀ i, boundaryGen prev (c :: cs) (i + 1) = boundaryGen (some c) cs i := by
  intro i
  cases i with
  | zero => rfl
  | succ j => rfl

theorem searchAux_spec (alts : List (List Char)) :
    ∀ (s : List Char) (prev : Option Char),
      searchAux alts prev s = (List.range s.length).findSome?
        (fun i => if boundaryGen prev s i then tryAlts alts (s.drop i) else none) := by
  intro s
  induction s with
  | nil => intro prev; rfl
  | cons c cs ih =>
    intro prev
    rw [show (c :: cs).length = cs.length + 1 from rfl, List.range_succ_eq_map,
      List.findSome?_cons]
    cases hscrut : (if atBoundaryPrev prev then tryAlts alts (c :: cs) else none) with
    | some m =>
      simp only [searchAux, List.drop_zero, boundaryGen, hscrut]
    | none =>
      simp only [searchAux, List.drop_zero, boundaryGen, hscrut]
      rw [ih (some c), List.findSome?_map]
      apply findSome?_congr
      intro i _
      cases i with
      | zero => rfl
      | succ j => rfl

theorem search_eq_specSearch (alts : List (List Char)) (s : List Char) :
    searchAux alts none s = specSearch alts s := by
  rw [searchAux_spec alts s none, specSearch]
  apply findSome?_congr
  intro i _
  have hb : boundaryGen none s i = boundaryBefore s i := by cases i <;> rfl
  rw [hb]
  rfl

theorem bool_reassoc (x w c : Bool) :
    ((c && w) && x) = ((x && w) && c) := by
  cases x <;> cases w <;> cases c <;> rfl

theorem joinSpace_cons_ne_nil {l : List Char} (h : l ≠ []) (ls : List (List Char)) :
    joinSpace (l :: ls) ≠ [] := by
  cases ls with
  | nil => simpa [joinSpace] using h
  | cons m ms =>
    rw [show joinSpace (l :: m :: ms) = l ++ ' ' :: joinSpace (m :: ms) from rfl]
    simp

theorem joinSpace_take_ne_nil {l : List Char} (h : l ≠ []) (ls : List (List Char)) :
    joinSpace ((l :: ls).take 30) ≠ [] := by
  rw [show (l :: ls).take 30 = l :: ls.take 29 from rfl]
  exact joinSpace_cons_ne_nil h _

theorem qualifies_head_ne_nil {l : List Char} (h : qualifiesLine l = true) :
    l ≠ [] := by
  intro h0
  subst h0
  simp [qualifiesLine] at h

theorem filter_strip_map (p : List Char → Bool) (l : List (List Char)) :
    (l.filter (fun x => p (pyStrip x))).map pyStrip = (l.map pyStrip).filter p := by
  induction l with
  | nil => rfl
  | cons x t ih =>
    by_cases hx : p (pyStrip x) = true
    · simp [List.filter_cons, hx, ih]
    · simp [List.filter_cons, hx, ih]

theorem cleanL_eq_spec (t : List Char) : clean_textL t = specCleanL t := by
  have hlist : (((((splitLinesPy t).filter (fun l =>
        ((pyStrip l).length > 10) && !(pyIsdigit (pyStrip l)))).map pyStrip).filter
        (fun l => !("whereas".data.isPrefixOf (lowerL l)))).filter
        (fun l => !(containsSub "confidential".data (lowerL l)))) =
      ((splitLinesPy t).map pyStrip).filter qualifiesLine := by
    rw [filter_strip_map (fun l => (l.length > 10) && !(pyIsdigit l))]
    rw [List.filter_filter, List.filter_filter]
    apply List.filter_congr
    intro x _
    rw [qualifiesLine]
    exact bool_reassoc _ _ _
  show (if (joinSpace ((((((splitLinesPy t).filter (fun l =>
        ((pyStrip l).length > 10) && !(pyIsdigit (pyStrip l)))).map pyStrip).filter
        (fun l => !("whereas".data.isPrefixOf (lowerL l)))).filter
        (fun l => !(containsSub "confidential".data (lowerL l)))).take 30)).isEmpty
      then sentinel.data
      else joinSpace ((((((splitLinesPy t).filter (fun l =>
        ((pyStrip l).length > 10) && !(pyIsdigit (pyStrip l)))).map pyStrip).filter
        (fun l => !("whereas".data.isPrefixOf (lowerL l)))).filter
        (fun l => !(containsSub "confidential".data (lowerL l)))).take 30)) =
    specCleanL t
  rw [hlist]
  show _ = (if (((splitLinesPy t).map pyStrip).filter qualifiesLine).isEmpty
      then sentinel.data
      else joinSpace ((((splitLinesPy t).map pyStrip).filter qualifiesLine).take 30))
  cases hs : ((splitLinesPy t).map pyStrip).filter qualifiesLine with
  | nil => simp [joinSpace]
  | cons l1 ls =>
    have hq : qualifiesLine l1 = true :=
      List.of_mem_filter (hs ▸ List.mem_cons_self l1 ls)
    have hne := qualifies_head_ne_nil hq
    rw [if_neg (by simpa [List.isEmpty_iff] using joinSpace_take_ne_nil hne ls)]
    rw [if_neg (by simp)]

theorem specCleanL_ne_nil (t : List Char) : specCleanL t ≠ [] := by
  unfold specCleanL
  cases hs : ((splitLinesPy t).map pyStrip).filter qualifiesLine with
  | nil => simp [sentinel]
  | cons l1 ls =>
    have hq : qualifiesLine l1 = true :=
      List.of_mem_filter (hs ▸ List.mem_cons_self l1 ls)
    rw [if_neg (by simp)]
    exact joinSpace_take_ne_nil (qualifies_head_ne_nil hq) ls

theorem splitLinesAux_no_break :
    ∀ (n : Nat) (s acc : List Char), s.length ≤ n →
      (∀ c ∈ acc, isLineBreak c = false) →
      ∀ l ∈ splitLinesAux acc s, ∀ c ∈ l, isLineBreak c = false := by
  intro n
  induction n with
  | zero =>
    intro s acc hs hacc l hl c hc
    have hnil : s = [] := List.length_eq_zero.mp (Nat.le_zero.mp hs)
    subst hnil
    rw [show splitLinesAux acc [] = [acc] from rfl] at hl
    rcases List.mem_cons.mp hl with rfl | h0
    · exact hacc c hc
    · simp at h0
  | succ n ih =>
    intro s acc hs hacc l hl c hc
    match s, hs with
    | [], _ =>
      rw [show splitLinesAux acc [] = [acc] from rfl] at hl
      rcases List.mem_cons.mp hl with rfl | h0
      · exact hacc c hc
      · simp at h0
    | [c0], _ =>
      simp only [splitLinesAux] at hl
      by_cases hb : isLineBreak c0 = true
      · rw [if_pos hb] at hl
        rcases List.mem_cons.mp hl with rfl | h0
        · exact hacc c hc
        · simp at h0
      · rw [if_neg hb] at hl
        rcases List.mem_cons.mp hl with rfl | h0
        · rcases List.mem_append.mp hc with h1 | h2
          · exact hacc c h1
          · rw [List.mem_singleton.mp h2]
            simpa using hb
        · simp at h0
    | c0 :: d :: r, hs =>
      have hlen : r.length ≤ n := by
        simp only [List.length_cons] at hs
        omega
      have hlen2 : (d :: r).length ≤ n := by
        simp only [List.length_cons] at hs ⊢
        omega
      simp only [splitLinesAux] at hl
      by_cases hpair : (c0 = '\r' && d = '\n') = true
      · rw [if_pos hpair] at hl
        rcases List.mem_cons.mp hl with rfl | hl2
        · exact hacc c hc
        · by_cases hr : r.isEmpty = true
          · rw [if_pos hr] at hl2
            simp at hl2
          · rw [if_neg hr] at hl2
            exact ih r [] hlen (by simp) l hl2 c hc
      · rw [if_neg hpair] at hl
        by_cases hb : isLineBreak c0 = true
        · rw [if_pos hb] at hl
          rcases List.mem_cons.mp hl with rfl | hl2
          · exact hacc c hc
          · exact ih (d :: r) [] hlen2 (by simp) l hl2 c hc
        · rw [if_neg hb] at hl
          refine ih (d :: r) (acc ++ [c0]) hlen2 ?_ l hl c hc
          intro x hx
          rcases List.mem_append.mp hx with h1 | h2
          · exact hacc x h1
          · rw [List.mem_singleton.mp h2]
            simpa using hb

theorem splitLinesPy_no_break (t : List Char) :
    ∀ l ∈ splitLinesPy t, ∀ c ∈ l, isLineBreak c = false := by
  intro l hl c hc
  unfold splitLinesPy at hl
  by_cases ht : t.isEmpty = true
  · rw [if_pos ht] at hl
    simp at hl
  · rw [if_neg ht] at hl
    exact splitLinesAux_no_break t.length t [] (Nat.le_refl _) (by simp) l hl c hc

theorem splitLinesAux_no_break_single :
    ∀ (n : Nat) (u acc : List Char), u.length ≤ n →
      (∀ c ∈ u, isLineBreak c = false) →
      splitLinesAux acc u = [acc ++ u] := by
  intro n
  induction n with
  | zero =>
    intro u acc hu _
    have hnil : u = [] := List.length_eq_zero.mp (Nat.le_zero.mp hu)
    subst hnil
    simp [splitLinesAux]
  | succ n ih =>
    intro u acc hu hnb
    match u, hu with
    | [], _ => simp [splitLinesAux]
    | [c0], _ =>
      simp only [splitLinesAux]
      rw [if_neg (by simp [hnb c0 (by simp)])]
    | c0 :: d :: r, hu =>
      have hc0 : isLineBreak c0 = false := hnb c0 (by simp)
      have hc0r : c0 ≠ '\r' := by
        intro h0
        rw [h0] at hc0
        simp [isLineBreak] at hc0
      simp only [splitLinesAux]
      rw [if_neg (by simp [hc0r])]
      rw [if_neg (by simp [hc0])]
      rw [ih (d :: r) (acc ++ [c0])
        (by simp only [List.length_cons] at hu ⊢; omega)
        (fun x hx => hnb x (List.mem_cons_of_mem c0 hx))]
      simp

theorem splitLinesPy_single {s : List Char} (hne : s ≠ [])
    (h : ∀ c ∈ s, isLineBreak c = false) : splitLinesPy s = [s] := by
  unfold splitLinesPy
  rw [if_neg (by simpa [List.isEmpty_iff] using hne)]
  simpa using splitLinesAux_no_break_single s.length s [] (Nat.le_refl _) h

theorem pyStrip_subset (s : List Char) : ∀ c ∈ pyStrip s, c ∈ s := by
  intro c hc
  unfold pyStrip at hc
  rw [List.mem_reverse] at hc
  have h1 := (List.dropWhile_suffix isSpacePy).subset hc
  rw [List.mem_reverse] at h1
  exact (List.dropWhile_suffix isSpacePy).subset h1

theorem dropWhile_head_not {p : Char → Bool} :
    ∀ (s : List Char) (c : Char), (s.dropWhile p).head? = some c → p c = false := by
  intro s
  induction s with
  | nil =>
    intro c hc
    simp [List.dropWhile] at hc
  | cons a t ih =>
    intro c hc
    rw [List.dropWhile_cons] at hc
    by_cases ha : p a = true
    · rw [if_pos ha] at hc
      exact ih c hc
    · rw [if_neg ha] at hc
      simp only [List.head?_cons, Option.some.injEq] at hc
      subst hc
      exact Bool.not_eq_true _ ▸ (by simpa using ha)

theorem dropWhile_eq_self_of_head {p : Char → Bool} {s : List Char}
    (h : ∀ c, s.head? = some c → p c = false) : s.dropWhile p = s := by
  cases s with
  | nil => rfl
  | cons a t => rw [List.dropWhile_cons, if_neg (by simp [h a rfl])]

theorem pyStrip_getLast_not_space (s : List Char) :
    ∀ c, (pyStrip s).getLast? = some c → isSpacePy c = false := by
  intro c hc
  unfold pyStrip at hc
  rw [List.getLast?_reverse] at hc
  exact dropWhile_head_not _ c hc

theorem pyStrip_head_not_space (s : List Char) :
    ∀ c, (pyStrip s).head? = some c → isSpacePy c = false := by
  intro c hc
  unfold pyStrip at hc
  rw [List.head?_reverse] at hc
  have hsuf : (s.dropWhile isSpacePy).reverse.dropWhile isSpacePy <:+
      (s.dropWhile isSpacePy).reverse := List.dropWhile_suffix isSpacePy
  obtain ⟨w, hw⟩ := hsuf
  have h2 : (s.dropWhile isSpacePy).reverse.getLast? = some c := by
    rw [← hw, List.getLast?_append, hc]
    rfl
  rw [List.getLast?_reverse] at h2
  exact dropWhile_head_not _ c h2

theorem pyStrip_eq_self {s : List Char}
    (h1 : ∀ c, s.head? = some c → isSpacePy c = false)
    (h2 : ∀ c, s.getLast? = some c → isSpacePy c = false) : pyStrip s = s := by
  unfold pyStrip
  rw [dropWhile_eq_self_of_head h1]
  rw [dropWhile_eq_self_of_head
    (fun c hc => h2 c (by rwa [List.head?_reverse] at hc))]
  exact List.reverse_reverse s

theorem joinSpace_head {l : List Char} (hl : l ≠ []) (ls : List (List Char)) :
    (joinSpace (l :: ls)).head? = l.head? := by
  cases ls with
  | nil => rfl
  | cons m ms =>
    rw [show joinSpace (l :: m :: ms) = l ++ ' ' :: joinSpace (m :: ms) from rfl]
    cases l with
    | nil => exact absurd rfl hl
    | cons a t => rfl

theorem joinSpace_getLast (L : List (List Char)) (hL : ∀ l ∈ L, l ≠ []) :
    L ≠ [] → ∃ l ∈ L, (joinSpace L).getLast? = l.getLast? := by
  induction L with
  | nil => intro h; exact absurd rfl h
  | cons l ls ih =>
    intro _
    cases ls with
    | nil => exact ⟨l, by simp, rfl⟩
    | cons m ms =>
      obtain ⟨x, hx, hxl⟩ := ih (fun y hy => hL y (List.mem_cons_of_mem l hy))
        (by simp)
      refine ⟨x, List.mem_cons_of_mem l hx, ?_⟩
      rw [show joinSpace (l :: m :: ms) = l ++ ' ' :: joinSpace (m :: ms) from rfl]
      rw [List.getLast?_append]
      have hxne : x ≠ [] := hL x (List.mem_cons_of_mem l hx)
      obtain ⟨y, hy⟩ : ∃ y, x.getLast? = some y := by
        rw [← Option.isSome_iff_exists, List.getLast?_isSome]
        exact hxne
      have hjs : (joinSpace (m :: ms)).getLast? = some y := by rw [hxl, hy]
      rw [show (' ' :: joinSpace (m :: ms)) = [' '] ++ joinSpace (m :: ms) from rfl]
      rw [List.getLast?_append, hjs, hy]
      rfl

theorem mem_joinSpace {c : Char} :
    ∀ L : List (List Char), c ∈ joinSpace L → c = ' ' ∨ ∃ l ∈ L, c ∈ l := by
  intro L
  induction L with
  | nil =>
    intro h
    simp [joinSpace] at h
  | cons l ls ih =>
    intro h
    cases ls with
    | nil => exact Or.inr ⟨l, by simp, by simpa [joinSpace] using h⟩
    | cons m ms =>
      rw [show joinSpace (l :: m :: ms) = l ++ ' ' :: joinSpace (m :: ms) from rfl] at h
      rcases List.mem_append.mp h with h1 | h2
      · exact Or.inr ⟨l, by simp, h1⟩
      · rcases List.mem_cons.mp h2 with rfl | h3
        · exact Or.inl rfl
        · rcases ih h3 with h4 | ⟨x, hx, hcx⟩
          · exact Or.inl h4
          · exact Or.inr ⟨x, List.mem_cons_of_mem l hx, hcx⟩

theorem mem_joinSpace_head {c : Char} {l : List Char} (hc : c ∈ l)
    (ls : List (List Char)) : c ∈ joinSpace (l :: ls) := by
  cases ls with
  | nil => exact hc
  | cons m ms =>
    rw [show joinSpace (l :: m :: ms) = l ++ ' ' :: joinSpace (m :: ms) from rfl]
    exact List.mem_append_left _ hc

theorem joinSpace_length_ge (l : List Char) (ls : List (List Char)) :
    l.length ≤ (joinSpace (l :: ls)).length := by
  cases ls with
  | nil => exact Nat.le_refl _
  | cons m ms =>
    rw [show joinSpace (l :: m :: ms) = l ++ ' ' :: joinSpace (m :: ms) from rfl]
    simp only [List.length_append]
    omega

theorem pref_append_of_le {p a : List Char} (b : List Char) (h : p <+: a ++ b)
    (hlen : p.length ≤ a.length) : p <+: a := by
  rw [List.prefix_iff_eq_take] at h ⊢
  rw [h, List.take_append_eq_append_take, Nat.sub_eq_zero_of_le hlen]
  simp

theorem lowerL_joinSpace :
    ∀ L : List (List Char), lowerL (joinSpace L) = joinSpace (L.map lowerL) := by
  intro L
  induction L with
  | nil => rfl
  | cons l ls ih =>
    cases ls with
    | nil => rfl
    | cons m ms =>
      rw [show joinSpace (l :: m :: ms) = l ++ ' ' :: joinSpace (m :: ms) from rfl]
      rw [show (l :: m :: ms).map lowerL = lowerL l :: (m :: ms).map lowerL from rfl]
      rw [show joinSpace (lowerL l :: (m :: ms).map lowerL) =
        lowerL l ++ ' ' :: joinSpace ((m :: ms).map lowerL) from ?_]
      · rw [← ih]
        unfold lowerL
        rw [List.map_append, List.map_cons]
        rfl
      · cases ms <;> rfl

theorem qualifies_parts {l : List Char} (h : qualifiesLine l = true) :
    10 < l.length ∧ pyIsdigit l = false ∧
      "whereas".data.isPrefixOf (lowerL l) = false ∧
      containsSub "confidential".data (lowerL l) = false := by
  rw [qualifiesLine, Bool.and_eq_true, Bool.and_eq_true, Bool.and_eq_true] at h
  obtain ⟨⟨⟨hA, hB⟩, hW⟩, hC⟩ := h
  refine ⟨by simpa using hA, by simpa using hB, by simpa using hW, by simpa using hC⟩

theorem lowerL_append (a b : List Char) :
    lowerL (a ++ b) = lowerL a ++ lowerL b := by
  simp [lowerL]

theorem specCleanL_join_fixed {l1 : List Char} {ls : List (List Char)}
    (hq : ∀ l ∈ l1 :: ls, qualifiesLine l = true)
    (hnb : ∀ l ∈ l1 :: ls, ∀ c ∈ l, isLineBreak c = false)
    (hhead : ∀ l ∈ l1 :: ls, ∀ c, l.head? = some c → isSpacePy c = false)
    (hlast : ∀ l ∈ l1 :: ls, ∀ c, l.getLast? = some c → isSpacePy c = false) :
    specCleanL (joinSpace (l1 :: ls)) = joinSpace (l1 :: ls) := by
  have hne : ∀ l ∈ l1 :: ls, l ≠ [] := fun l hl => qualifies_head_ne_nil (hq l hl)
  have hl1 : l1 ∈ l1 :: ls := List.mem_cons_self l1 ls
  have hyne : joinSpace (l1 :: ls) ≠ [] := joinSpace_cons_ne_nil (hne l1 hl1) ls
  have hql1 := qualifies_parts (hq l1 hl1)
  have hynb : ∀ c ∈ joinSpace (l1 :: ls), isLineBreak c = false := by
    intro c hc
    rcases mem_joinSpace _ hc with rfl | ⟨l, hl, hcl⟩
    · decide
    · exact hnb l hl c hcl
  have hystrip : pyStrip (joinSpace (l1 :: ls)) = joinSpace (l1 :: ls) := by
    refine pyStrip_eq_self ?_ ?_
    · intro c hc
      rw [joinSpace_head (hne l1 hl1) ls] at hc
      exact hhead l1 hl1 c hc
    · intro c hc
      obtain ⟨l, hl, hleq⟩ := joinSpace_getLast _ hne (by simp)
      rw [hleq] at hc
      exact hlast l hl c hc
  have hylen : 10 < (joinSpace (l1 :: ls)).length :=
    lt_of_lt_of_le hql1.1 (joinSpace_length_ge l1 ls)
  have hydig : pyIsdigit (joinSpace (l1 :: ls)) = false := by
    have hd := hql1.2.1
    have hl1ne := hne l1 hl1
    have hall1 : l1.all Char.isDigit = false := by
      cases hall : l1.all Char.isDigit
      · rfl
      · rw [pyIsdigit, hall] at hd
        simp [List.isEmpty_iff, hl1ne] at hd
    obtain ⟨c, hcl, hcd⟩ : ∃ c ∈ l1, Char.isDigit c = false := by
      by_contra hno
      push_neg at hno
      have hat : l1.all Char.isDigit = true := List.all_eq_true.mpr (fun c hc => by
        cases hcc : c.isDigit with
        | false => exact absurd hcc (hno c hc)
        | true => rfl)
      rw [hat] at hall1
      simp at hall1
    have hcy : c ∈ joinSpace (l1 :: ls) := mem_joinSpace_head hcl ls
    have hally : (joinSpace (l1 :: ls)).all Char.isDigit = false := by
      cases hall2 : (joinSpace (l1 :: ls)).all Char.isDigit
      · rfl
      · exact absurd (List.all_eq_true.mp hall2 c hcy) (by simp [hcd])
    simp [pyIsdigit, hally]
  have hyw : "whereas".data.isPrefixOf (lowerL (joinSpace (l1 :: ls))) = false := by
    cases hwpf : "whereas".data.isPrefixOf (lowerL (joinSpace (l1 :: ls)))
    · rfl
    · exfalso
      have hpre : "whereas".data <+: lowerL (joinSpace (l1 :: ls)) :=
        ( List.isPrefixOf_iff_prefix).mp hwpf
      have hW := hql1.2.2.1
      cases ls with
      | nil =>
        rw [show joinSpace [l1] = l1 from rfl] at hpre
        exact absurd (( List.isPrefixOf_iff_prefix).mpr hpre) (by simp [hW])
      | cons m ms =>
        rw [show joinSpace (l1 :: m :: ms) = l1 ++ ' ' :: joinSpace (m :: ms)
          from rfl, lowerL_append] at hpre
        have hple : ("whereas".data).length ≤ (lowerL l1).length := by
          rw [show ("whereas".data).length = 7 from rfl, lowerL, List.length_map]
          omega
        exact absurd (( List.isPrefixOf_iff_prefix).mpr
          (pref_append_of_le _ hpre hple)) (by simp [hW])
  have hyc : containsSub "confidential".data (lowerL (joinSpace (l1 :: ls)))
      = false := by
    cases hcpf : containsSub "confidential".data (lowerL (joinSpace (l1 :: ls)))
    · rfl
    · exfalso
      have hinf : "confidential".data <:+: lowerL (joinSpace (l1 :: ls)) :=
        (containsSub_iff _ _).mp hcpf
      rw [lowerL_joinSpace] at hinf
      obtain ⟨x, hx, hxinf⟩ := infix_joinSpace_mem (by decide) (by decide) _ hinf
      obtain ⟨l, hl, rfl⟩ := List.mem_map.mp hx
      have hcl := (qualifies_parts (hq l hl)).2.2.2
      exact absurd ((containsSub_iff _ _).mpr hxinf) (by simp [hcl])
  have hqy : qualifiesLine (joinSpace (l1 :: ls)) = true := by
    rw [qualifiesLine]
    simp [hylen, hydig, hyw, hyc]
  have hsplit2 : splitLinesPy (joinSpace (l1 :: ls)) = [joinSpace (l1 :: ls)] :=
    splitLinesPy_single hyne hynb
  unfold specCleanL
  rw [hsplit2]
  rw [show [joinSpace (l1 :: ls)].map pyStrip = [pyStrip (joinSpace (l1 :: ls))]
    from rfl, hystrip]
  rw [show List.filter qualifiesLine [joinSpace (l1 :: ls)] =
    [joinSpace (l1 :: ls)] from by simp [hqy]]
  rw [if_neg (by simp)]
  rfl

/-! ## Claims -/

/-- C1: for every input string, the normalizer is the spec's pipeline: it
splits on line boundaries, trims every line, keeps exactly the lines whose
trimmed form has length > 10, is not entirely digits, does not start
(lower-cased) with "whereas" and does not contain (lower-cased)
"confidential", keeps at most the first 30 such lines in order, joins them
with single spaces, returns exactly the sentinel "No usable text found."
when zero lines survive, and never returns an empty string. -/
theorem c1_normalizer_correct (text : String) :
    clean_text text = specClean text ∧ clean_text text ≠ "" := by
  constructor
  · exact congrArg String.mk (cleanL_eq_spec text.data)
  · intro h
    apply specCleanL_ne_nil text.data
    have hd := congrArg String.data h
    rw [show (clean_text text).data = clean_textL text.data from rfl] at hd
    rw [← cleanL_eq_spec text.data]
    exact hd

/-- C2: for every document, if the trimmed direct per-page extraction (pages
joined by newline, `""` for pages with no text) has length > 100, the
resolver returns that text and never invokes the OCR fallback (its output
does not depend on the OCR input); otherwise it returns the concatenation of
the per-page OCR text with no separator and no further fallback. -/
theorem c2_resolver_branch (pages : List (Option (List Char)))
    (ocr1 ocr2 : List (List Char)) :
    (100 < (pyStrip (directText pages)).length →
      extract_text_from_pdf pages ocr1 = directText pages ∧
      extract_text_from_pdf pages ocr1 = extract_text_from_pdf pages ocr2) ∧
    ((pyStrip (directText pages)).length ≤ 100 →
      extract_text_from_pdf pages ocr1 = ocr1.flatten) := by
  constructor
  · intro h
    constructor <;>
      simp only [extract_text_from_pdf, directText] at h ⊢ <;>
      rw [if_pos h]
    rw [if_pos h]
  · intro h
    simp only [extract_text_from_pdf, directText] at h ⊢
    rw [if_neg (by omega)]

/-- Witness for C2 at concrete inputs: a 101-character page takes the direct
branch, and a short page takes the OCR branch. -/
theorem c2_resolver_branch_witness :
    (100 < (pyStrip (directText [some (List.replicate 101 'a')])).length ∧
      extract_text_from_pdf [some (List.replicate 101 'a')] ["ocr".data] =
        directText [some (List.replicate 101 'a')]) ∧
    ((pyStrip (directText [some "too short".data])).length ≤ 100 ∧
      extract_text_from_pdf [some "too short".data] ["ocr out".data] =
        "ocr out".data) := by
  refine ⟨⟨by decide, ((c2_resolver_branch _ _ ["x".data]).1 (by decide)).1⟩,
    ⟨by decide, Eq.trans ((c2_resolver_branch _ _ ["x".data]).2 (by decide))
      (by decide)⟩⟩

/-- C6: the risk flagger tests the three fixed phrases in source order with
case-insensitive containment, appending one fixed warning each; a text with
"sole discretion" and "no obligation to pay" but not "termination for
convenience" yields exactly those two warnings in that order, and a text
with none of the three yields the empty sequence. -/
theorem c6_risk_flagger (text : String) :
    (flag_risks text =
      (if containsCI text "termination for convenience"
        then ["⚠️ Termination may favor sponsor"] else []) ++
      (if containsCI text "sole discretion"
        then ["⚠️ One-sided decision-making clause"] else []) ++
      (if containsCI text "no obligation to pay"
        then ["⚠️ Payment obligation is unclear"] else [])) ∧
    (containsCI text "termination for convenience" = false →
      containsCI text "sole discretion" = true →
      containsCI text "no obligation to pay" = true →
      flag_risks text =
        ["⚠️ One-sided decision-making clause", "⚠️ Payment obligation is unclear"]) ∧
    (containsCI text "termination for convenience" = false →
      containsCI text "sole discretion" = false →
      containsCI text "no obligation to pay" = false →
      flag_risks text = []) := by
  refine ⟨?_, ?_, ?_⟩
  · cases h1 : containsCI text "termination for convenience" <;>
    cases h2 : containsCI text "sole discretion" <;>
    cases h3 : containsCI text "no obligation to pay" <;>
    simp [flag_risks, h1, h2, h3]
  · intro h1 h2 h3; simp [flag_risks, h1, h2, h3]
  · intro h1 h2 h3; simp [flag_risks, h1, h2, h3]

/-- Witness for C6: scenario C at a concrete text, and the no-risk case. -/
theorem c6_risk_flagger_witness :
    flag_risks "at our sole discretion; no obligation to pay" =
      ["⚠️ One-sided decision-making clause", "⚠️ Payment obligation is unclear"] ∧
    flag_risks "plain text" = [] := by
  exact ⟨(c6_risk_flagger _).2.1 (by decide) (by decide) (by decide),
    (c6_risk_flagger _).2.2 (by decide) (by decide) (by decide)⟩

/-- C7 counterexample: on the empty document the document-specific strategy
produces zero rows, not one row per label of its fixed seven-label set, so
the two strategies do not both emit one record per label. -/
theorem c7_counterexample :
    (extract_payment_terms_custom "").length ≠ customPaymentLabels.length := by
  decide

/-- C7 amended: the generic strategy produces exactly one record per label
of its fixed five-label set, in declaration order; the document-specific
strategy produces one record per fired rule, its labels forming an in-order
subsequence of its fixed seven-rule label list; both produce the same
record shape (label, mentioned flag, detail/example text). -/
theorem c7_payment_rows_amended (text : String) :
    (extract_payment_terms text).map PaymentRow.label = genericPaymentLabels ∧
    ((extract_payment_terms_custom text).map PaymentRow.label).Sublist
      customPaymentLabels := by
  constructor
  · rfl
  · have h : (extract_payment_terms_custom text).map PaymentRow.label =
        (if (containsS text "Administrative Start-Up Fee" ||
            containsS text "Administrative Start-Up Fees") = true
          then ["Startup Fee"] else []) ++
        ((if (containsS text "Total Listed Fees: $41,254.93" ||
            containsS text "Total Cost per Patient") = true
          then ["Per Patient Visits"] else []) ++
        ((if (containsS text "Final payment will consist of" ||
            containsS text "Fee for cleaning and answering queries") = true
          then ["Final Closeout (DB Lock)"] else []) ++
        ((if containsS text "Local Initial IRB Pass-Through Fees" = true
          then ["IRB Fees"] else []) ++
        ((if containsS text "Screen Failure Visit Fee" = true
          then ["Screen Failures"] else []) ++
        ((if containsS text "Patient Stipend" = true
          then ["Patient Stipend"] else []) ++
        (if containsS text "Invoiceable Items" = true
          then ["Misc. Items (MRI, Re-consent, etc.)"] else [])))))) := by
      simp only [extract_payment_terms_custom, List.map_append,
        apply_ite (List.map PaymentRow.label), List.map_cons, List.map_nil,
        List.append_assoc]
    rw [h]
    exact ite_single_append_sublist _ _ (ite_single_append_sublist _ _
      (ite_single_append_sublist _ _ (ite_single_append_sublist _ _
        (ite_single_append_sublist _ _ (ite_single_append_sublist _ _
          (ite_single_sublist _ _))))))

/-- C9: the main script as written does not render the summary and risk
sections on a normal pass.  Because lines 164-214 are dedented, those
sections live inside the `except` arm of the payment-chart `try`, whose
`else` arm shows the upload prompt: with an uploaded document and a
non-raising chart, the rendered sections contain neither a risk nor a
summary section whatever the summarizer outcome, and the sections only
appear when the chart block raises. -/
theorem c9_sections_not_rendered :
    mainSections (some "Agreement text") (Except.ok "summary") false =
      Except.ok ["clause_summary", "milestone_table", "payment_custom_table",
        "payment_chart", "upload_prompt"] ∧
    mainSections (some "Agreement text") (Except.error "API Error 401") false =
      mainSections (some "Agreement text") (Except.ok "summary") false ∧
    mainSections (some "Agreement text") (Except.ok "summary") true =
      Except.ok ["clause_summary", "milestone_table", "payment_custom_table",
        "chart_warning", "summary_input_area", "summary_info", "summary_download",
        "risk_flags_header", "no_risks_notice", "clause_download"] := by
  exact ⟨rfl, rfl, rfl⟩

/-- C10 counterexample: "termination for convenience" triggers the
termination risk warning, yet the clause extractor's Termination Rights
boolean is false on the very same text, because "terminate" is not a
substring of "termination for convenience". -/
theorem c10_counterexample :
    flag_risks "termination for convenience" =
      ["⚠️ Termination may favor sponsor"] ∧
    (extract_key_clauses "termination for convenience").terminationRights
      = false := by
  exact ⟨rfl, rfl⟩

/-- C10 amended: the termination risk warning is emitted iff the text
contains "termination for convenience" case-insensitively, and Termination
Rights is true iff the text contains "terminate" case-insensitively; the
former does not imply the latter (see the counterexample), since
"terminate" is not a substring of "termination for convenience". -/
theorem c10_termination_link_amended (text : String) :
    ("⚠️ Termination may favor sponsor" ∈ flag_risks text ↔
      containsCI text "termination for convenience" = true) ∧
    ((extract_key_clauses text).terminationRights = true ↔
      "terminate".data <:+: lowerL text.data) := by
  constructor
  · cases h1 : containsCI text "termination for convenience" <;>
    cases h2 : containsCI text "sole discretion" <;>
    cases h3 : containsCI text "no obligation to pay" <;>
    simp [flag_risks, h1, h2, h3]
  · exact containsSub_iff _ _

/-- C3: for every input text, each of the labels Sponsor, Institution and
Investigator yields exactly the ordered sequence of non-overlapping
case-sensitive matches of the label literal followed by the rest of its
line — equivalently, per newline-separated segment of the first 2000
characters, the segment from the first occurrence of the label to the end
of that segment — and the three booleans are case-sensitive substring
presence of "Indemnification" and "Trial Participant Injury" and
case-insensitive substring presence of "terminate". -/
theorem c3_clause_extractor (text : String) :
    (extract_key_clauses text).sponsor =
      (lineMatchSpec "Sponsor".data (text.data.take 2000)).map String.mk ∧
    (extract_key_clauses text).institution =
      (lineMatchSpec "Institution".data (text.data.take 2000)).map String.mk ∧
    (extract_key_clauses text).investigator =
      (lineMatchSpec "Investigator".data (text.data.take 2000)).map String.mk ∧
    ((extract_key_clauses text).includesIndemnification = true ↔
      "Indemnification".data <:+: text.data) ∧
    ((extract_key_clauses text).includesInjuryClause = true ↔
      "Trial Participant Injury".data <:+: text.data) ∧
    ((extract_key_clauses text).terminationRights = true ↔
      "terminate".data <:+: lowerL text.data) := by
  refine ⟨?_, ?_, ?_, containsSub_iff _ _, containsSub_iff _ _,
    containsSub_iff _ _⟩ <;>
  exact congrArg (List.map String.mk) ((findAux_spec (by decide) (by decide) _).1)

/-- C8: the normalizer is idempotent: normalizing an already-normalized
string (including the sentinel "No usable text found.") returns it
unchanged, so `clean_text (clean_text x) = clean_text x` for every `x`. -/
theorem c8_normalizer_idempotent (text : String) :
    clean_text (clean_text text) = clean_text text := by
  suffices h : clean_textL (clean_textL text.data) = clean_textL text.data by
    unfold clean_text
    rw [show (String.mk (clean_textL text.data)).data = clean_textL text.data
      from rfl]
    exact congrArg String.mk h
  rw [cleanL_eq_spec text.data, cleanL_eq_spec (specCleanL text.data)]
  cases hs : ((splitLinesPy text.data).map pyStrip).filter qualifiesLine with
  | nil =>
    have h1 : specCleanL text.data = sentinel.data := by
      unfold specCleanL
      rw [hs]
      rfl
    rw [h1]
    decide
  | cons l1 ls =>
    have hy : specCleanL text.data = joinSpace ((l1 :: ls).take 30) := by
      unfold specCleanL
      rw [hs]
      rw [if_neg (by simp)]
    rw [hy]
    rw [show (l1 :: ls).take 30 = l1 :: ls.take 29 from rfl]
    have hmem : ∀ l ∈ l1 :: ls.take 29,
        l ∈ ((splitLinesPy text.data).map pyStrip).filter qualifiesLine := by
      intro l hl
      rw [hs]
      rw [show (l1 :: ls.take 29) = (l1 :: ls).take 30 from rfl] at hl
      exact List.take_subset 30 _ hl
    have hq : ∀ l ∈ l1 :: ls.take 29, qualifiesLine l = true := fun l hl =>
      List.of_mem_filter (hmem l hl)
    have hraw : ∀ l ∈ l1 :: ls.take 29,
        ∃ raw ∈ splitLinesPy text.data, pyStrip raw = l := by
      intro l hl
      obtain ⟨raw, h1, h2⟩ := List.mem_map.mp (List.mem_filter.mp (hmem l hl)).1
      exact ⟨raw, h1, h2⟩
    apply specCleanL_join_fixed hq
    · intro l hl c hc
      obtain ⟨raw, h1, h2⟩ := hraw l hl
      exact splitLinesPy_no_break text.data raw h1 c
        (pyStrip_subset raw c (by rw [h2]; exact hc))
    · intro l hl c hc
      obtain ⟨raw, h1, h2⟩ := hraw l hl
      exact pyStrip_head_not_space raw c (by rw [h2]; exact hc)
    · intro l hl c hc
      obtain ⟨raw, h1, h2⟩ := hraw l hl
      exact pyStrip_getLast_not_space raw c (by rw [h2]; exact hc)

/-- C4: the Budget Amounts extraction searches the entire text and every
returned token satisfies the currency grammar: `"$"`, one to three digits,
optional comma-separated groups of exactly three digits, and an optional
dot with exactly two digits; tokens are returned in order of appearance
with duplicates included. -/
theorem c4_budget_grammar (text : String) :
    (∀ m ∈ (extract_key_clauses text).budget, isCurrency m.data = true) ∧
    (extract_key_clauses "fee $5 then $1,200.50 then $5 again").budget =
      ["$5", "$1,200.50", "$5"] := by
  constructor
  · intro m hm
    simp only [extract_key_clauses, findallBudget, List.mem_map] at hm
    obtain ⟨l, hl, rfl⟩ := hm
    exact scanBudget_currency text.data.length text.data l hl
  · rfl

/-- C5: the milestone extractor produces exactly one record per fixed
milestone label, in declaration order; the mentioned flag is set iff the
label's case-insensitive pattern matches at some position of the entire
text, and the example field is the literal text of the match at the first
such position (the first match) when mentioned, and empty otherwise. -/
theorem c5_milestones (text : String) :
    extract_milestones text = milestonePats.map (fun p =>
      match specSearch p.2 text.data with
      | some m => ⟨p.1, "✅ Yes", String.mk m⟩
      | none => ⟨p.1, "❌ No", ""⟩) ∧
    ∀ alts : List (List Char), ((specSearch alts text.data).isSome = true ↔
      ∃ i, i < text.data.length ∧
        (specMatchAt alts text.data i).isSome = true) := by
  constructor
  · unfold extract_milestones
    apply List.map_congr_left
    intro p _
    rw [search_eq_specSearch]
  · intro alts
    simp [specSearch, List.findSome?_isSome_iff, List.mem_range]

/-- Witness for C4: the scenario-A amount is extracted from a concrete text
and satisfies the grammar. -/
theorem c4_budget_grammar_witness :
    "$41,254.93" ∈ (extract_key_clauses "total cost $41,254.93 due").budget ∧
    isCurrency "$41,254.93".data = true :=
  ⟨by decide,
    (c4_budget_grammar "total cost $41,254.93 due").1 "$41,254.93" (by decide)⟩

end CTA
